import Mathlib

/-!
# Verification of the Swarm content-addressed chunk storage engine

This development embeds the storage core exercised by
`swarm/storage/dpa_test.go` (the DPA `Store`/`Retrieve` orchestration over a
`LocalStore` composed of a `MemStore` cache and a durable `DbStore`, with the
chunker's split/join pipeline and the optional per-operation encryption
layer), and the `fakeBackend` helper of `swarm/testutil/http.go`.

The implementation of the storage core itself (chunker, stores, DPA API) is
not among the available source files; only its test driver is.  Those
components are therefore modelled from the specification, as the doc comment
of each such definition records.  `fakeBackend.HeaderByNumber` is embedded
directly from `swarm/testutil/http.go`.

Modelling conventions:
* bytes are `Fin 256`, byte sequences are lists;
* the content hash is modelled as the identity injection: an address *is*
  the (possibly encrypted) chunk content, which is collision-free by
  construction exactly as the spec demands of the hash;
* stores hold the set of chunks that have been put and not evicted;
* the per-operation encryption key is a single byte added to every payload
  byte (an invertible transform applied per chunk before addressing);
* the context carries only its expiry flag; machine `int64` arithmetic in
  `fakeBackend` is modelled on `Int` with explicit two's-complement
  wraparound.
-/

/-- A byte. -/
abbrev Byte := Fin 256

/-- A byte sequence (stream contents, chunk payloads). -/
abbrev ByteSeq := List Byte

/-- Modelled from the spec: a chunk is a leaf payload segment or an internal
node encoding its subtree size plus the sequence of child addresses.  Under
the identity-hash model an address is the chunk content itself, so a child
address is a `ChunkData`. -/
inductive ChunkData where
  | leaf (payload : ByteSeq)
  | node (span : Nat) (children : List ChunkData)

mutual

/-- Boolean equality test on chunk data (for decidable store membership). -/
def beqC : ChunkData → ChunkData → Bool
  | .leaf p, .leaf q => p = q
  | .node s cs, .node t ds => s = t && beqL cs ds
  | _, _ => false

/-- Boolean equality test on lists of chunk data. -/
def beqL : List ChunkData → List ChunkData → Bool
  | [], [] => true
  | c :: cs, d :: ds => beqC c d && beqL cs ds
  | _, _ => false

end

mutual

theorem beqC_iff : ∀ a b, beqC a b = true ↔ a = b
  | .leaf p, .leaf q => by simp [beqC]
  | .leaf _, .node _ _ => by simp [beqC]
  | .node _ _, .leaf _ => by simp [beqC]
  | .node s cs, .node t ds => by simp [beqC, beqL_iff cs ds]

theorem beqL_iff : ∀ a b, beqL a b = true ↔ a = b
  | [], [] => by simp [beqL]
  | [], _ :: _ => by simp [beqL]
  | _ :: _, [] => by simp [beqL]
  | c :: cs, d :: ds => by simp [beqL, beqC_iff c d, beqL_iff cs ds]

end

instance : DecidableEq ChunkData := fun a b =>
  decidable_of_iff (beqC a b = true) (beqC_iff a b)

/-- Modelled from the spec: the fixed maximum chunk size of the splitter
(4096 bytes, the chunk size limit of the missing chunker). -/
def chunkSize : Nat := 4096

/-- Modelled from the spec: the fan-out of internal tree nodes, derived from
the chunk size limit (128 child addresses per internal node). -/
def branches : Nat := 128

/-- Cut a list into consecutive groups of `n` elements; `fuel` bounds the
recursion and is adequate whenever `fuel ≥ l.length` and `1 ≤ n`. -/
def chunksOfAux (fuel n : Nat) (l : List α) : List (List α) :=
  match fuel, l with
  | 0, _ => []
  | _, [] => []
  | fuel + 1, x :: xs => (x :: xs).take n :: chunksOfAux fuel n ((x :: xs).drop n)

/-- Cut a list into consecutive groups of `n` elements. -/
def chunksOf (n : Nat) (l : List α) : List (List α) :=
  chunksOfAux l.length n l

theorem chunksOfAux_flatten (n : Nat) (hn : 1 ≤ n) :
    ∀ (fuel : Nat) (l : List α), l.length ≤ fuel → (chunksOfAux fuel n l).flatten = l := by
  intro fuel
  induction fuel with
  | zero =>
      intro l hl
      rw [Nat.le_zero, List.length_eq_zero] at hl
      subst hl
      rfl
  | succ fuel ih =>
      intro l hl
      match l with
      | [] => rfl
      | x :: xs =>
          have hlen : ((x :: xs).drop n).length ≤ fuel := by
            rw [List.length_drop]
            simp only [List.length_cons] at hl ⊢
            omega
          rw [chunksOfAux, List.flatten_cons, ih ((x :: xs).drop n) hlen,
            List.take_append_drop]

theorem chunksOf_flatten (n : Nat) (hn : 1 ≤ n) (l : List α) :
    (chunksOf n l).flatten = l :=
  chunksOfAux_flatten n hn l.length l le_rfl

/-- The number of stream bytes covered by a chunk (leaf payload length, or
the recorded subtree span of an internal node). -/
def chunkSpan : ChunkData → Nat
  | .leaf p => p.length
  | .node sp _ => sp

/-- Modelled from the spec: batch a sequence of child chunks into an internal
node recording the total subtree size and the child addresses. -/
def mkNode (cs : List ChunkData) : ChunkData :=
  .node (cs.map chunkSpan).sum cs

/-- Modelled from the spec: cut a stream into leaf chunks of at most
`chunkSize` bytes. -/
def leafChunks (S : ByteSeq) : List ChunkData :=
  (chunksOf chunkSize S).map .leaf

/-- Modelled from the spec: recursively batch child addresses into internal
node chunks, `branches` at a time, until a single root chunk remains; an
empty input yields the well-defined root of the empty content.  `fuel`
bounds the number of batching rounds. -/
def buildTreeAux (fuel : Nat) (cs : List ChunkData) : ChunkData :=
  match cs with
  | [] => .leaf []
  | [c] => c
  | c₁ :: c₂ :: rest =>
      match fuel with
      | 0 => mkNode (c₁ :: c₂ :: rest)
      | fuel + 1 => buildTreeAux fuel ((chunksOf branches (c₁ :: c₂ :: rest)).map mkNode)

/-- Modelled from the spec: the splitter.  Cuts the stream into leaf chunks
and builds the hash tree bottom-up, returning the root chunk (whose content
is the root address under the identity-hash model). -/
def splitData (S : ByteSeq) : ChunkData :=
  buildTreeAux (leafChunks S).length (leafChunks S)

mutual

/-- Modelled from the spec: the joiner's reconstruction of the stream under a
chunk, applying the transform `dec` (decryption, or `id`) to each leaf
payload. -/
def joinD (dec : ByteSeq → ByteSeq) : ChunkData → ByteSeq
  | .leaf p => dec p
  | .node _ cs => joinL dec cs

/-- Reconstruction of the concatenated streams under a list of chunks. -/
def joinL (dec : ByteSeq → ByteSeq) : List ChunkData → ByteSeq
  | [] => []
  | c :: cs => joinD dec c ++ joinL dec cs

end

theorem joinL_append (dec : ByteSeq → ByteSeq) (l₁ l₂ : List ChunkData) :
    joinL dec (l₁ ++ l₂) = joinL dec l₁ ++ joinL dec l₂ := by
  induction l₁ with
  | nil => simp [joinL]
  | cons c cs ih => simp [joinL, ih]

theorem joinD_mkNode (dec : ByteSeq → ByteSeq) (cs : List ChunkData) :
    joinD dec (mkNode cs) = joinL dec cs := rfl

theorem joinL_map_mkNode (dec : ByteSeq → ByteSeq) (gs : List (List ChunkData)) :
    joinL dec (gs.map mkNode) = joinL dec gs.flatten := by
  induction gs with
  | nil => rfl
  | cons g gs ih =>
      simp only [List.map_cons, List.flatten_cons, joinL, joinD_mkNode, ih,
        joinL_append]

theorem joinD_buildTreeAux (dec : ByteSeq → ByteSeq) (hdec : dec [] = [])
    (fuel : Nat) : ∀ cs : List ChunkData, joinD dec (buildTreeAux fuel cs) = joinL dec cs := by
  induction fuel with
  | zero =>
      intro cs
      match cs with
      | [] => simp [buildTreeAux, joinD, joinL, hdec]
      | [c] => simp [buildTreeAux, joinL]
      | c₁ :: c₂ :: rest => simp only [buildTreeAux, joinD_mkNode]
  | succ fuel ih =>
      intro cs
      match cs with
      | [] => simp [buildTreeAux, joinD, joinL, hdec]
      | [c] => simp [buildTreeAux, joinL]
      | c₁ :: c₂ :: rest =>
          simp only [buildTreeAux]
          rw [ih, joinL_map_mkNode, chunksOf_flatten branches (by decide)]

theorem joinL_leafChunks (S : ByteSeq) : joinL id (leafChunks S) = S := by
  have h : ∀ gs : List ByteSeq, joinL id (gs.map .leaf) = gs.flatten := by
    intro gs
    induction gs with
    | nil => rfl
    | cons g gs ih => simp [joinL, joinD, ih]
  rw [leafChunks, h, chunksOf_flatten chunkSize (by decide)]

/-- The split/join round trip on plaintext chunk trees. -/
theorem joinD_splitData (S : ByteSeq) : joinD id (splitData S) = S := by
  rw [splitData, joinD_buildTreeAux id rfl, joinL_leafChunks]

/-- Modelled from the spec: encrypt a chunk payload with the per-operation
key, one byte of key material added to every payload byte (an invertible
transform applied before addressing, so the address reflects ciphertext). -/
def encB (k : Byte) (p : ByteSeq) : ByteSeq :=
  p.map (fun b => b + k)

/-- Modelled from the spec: the symmetric decryption transform, applied to a
fetched payload before handing bytes to the joiner's consumer. -/
def decB (k : Byte) (p : ByteSeq) : ByteSeq :=
  p.map (fun b => b - k)

theorem decB_encB (k : Byte) (p : ByteSeq) : decB k (encB k p) = p := by
  simp [decB, encB, Function.comp_def, add_sub_cancel_right]

mutual

/-- Modelled from the spec: encrypt every chunk of a tree with the
per-operation key; leaf payloads are transformed, internal nodes keep their
span and refer to the (already encrypted) child addresses. -/
def encTree (k : Byte) : ChunkData → ChunkData
  | .leaf p => .leaf (encB k p)
  | .node sp cs => .node sp (encList k cs)

/-- Encrypt a list of child chunks. -/
def encList (k : Byte) : List ChunkData → List ChunkData
  | [] => []
  | c :: cs => encTree k c :: encList k cs

end

mutual

theorem joinD_decB_encTree (k : Byte) :
    ∀ c : ChunkData, joinD (decB k) (encTree k c) = joinD id c
  | .leaf p => by simp [encTree, joinD, decB_encB]
  | .node sp cs => by simp [encTree, joinD, joinL_decB_encList k cs]

theorem joinL_decB_encList (k : Byte) :
    ∀ cs : List ChunkData, joinL (decB k) (encList k cs) = joinL id cs
  | [] => rfl
  | c :: cs => by
      simp [encList, joinL, joinD_decB_encTree k c, joinL_decB_encList k cs]

end

mutual

/-- Modelled from the spec: every chunk produced by splitting a tree — the
chunks the splitter pushes to the chunk-store capability (the root chunk and,
recursively, all chunks below it). -/
def chunksUnder : ChunkData → List ChunkData
  | .leaf p => [.leaf p]
  | .node sp cs => .node sp cs :: chunksUnderList cs

/-- All chunks at or below any chunk of a list. -/
def chunksUnderList : List ChunkData → List ChunkData
  | [] => []
  | c :: cs => chunksUnder c ++ chunksUnderList cs

end

mutual

/-- Modelled from the spec: the joiner's lazy traversal.  Fetch the chunk at
an address from the chunk-store capability `has` (the identity-hash model
makes a successful fetch return the address's own content); on a leaf,
return the payload passed through `dec`; on an internal node, resolve every
child and concatenate.  A chunk absent from every tier makes the read fail
with not-found (`none`) rather than return truncated data. -/
def readTree (has : ChunkData → Bool) (dec : ByteSeq → ByteSeq) : ChunkData → Option ByteSeq
  | .leaf p => if has (.leaf p) then some (dec p) else none
  | .node sp cs => if has (.node sp cs) then readList has dec cs else none

/-- Resolve a list of child addresses, failing if any resolution fails. -/
def readList (has : ChunkData → Bool) (dec : ByteSeq → ByteSeq) : List ChunkData → Option ByteSeq
  | [] => some []
  | c :: cs =>
      match readTree has dec c, readList has dec cs with
      | some d, some ds => some (d ++ ds)
      | _, _ => none

end

mutual

theorem readTree_complete (has : ChunkData → Bool) (dec : ByteSeq → ByteSeq) :
    ∀ c : ChunkData, (∀ x ∈ chunksUnder c, has x = true) →
      readTree has dec c = some (joinD dec c)
  | .leaf p => by
      intro h
      have hp : has (.leaf p) = true := h _ (by simp [chunksUnder])
      simp [readTree, hp, joinD]
  | .node sp cs => by
      intro h
      have hp : has (.node sp cs) = true := h _ (by simp [chunksUnder])
      have hcs : ∀ x ∈ chunksUnderList cs, has x = true := by
        intro x hx
        exact h x (by simp [chunksUnder, hx])
      simp [readTree, hp, joinD, readList_complete has dec cs hcs]

theorem readList_complete (has : ChunkData → Bool) (dec : ByteSeq → ByteSeq) :
    ∀ cs : List ChunkData, (∀ x ∈ chunksUnderList cs, has x = true) →
      readList has dec cs = some (joinL dec cs)
  | [] => by intro h; simp [readList, joinL]
  | c :: cs => by
      intro h
      have hc : ∀ x ∈ chunksUnder c, has x = true := by
        intro x hx
        exact h x (by simp [chunksUnderList, hx])
      have hcs : ∀ x ∈ chunksUnderList cs, has x = true := by
        intro x hx
        exact h x (by simp [chunksUnderList, hx])
      simp [readList, readTree_complete has dec c hc,
        readList_complete has dec cs hcs, joinL]

end

theorem readTree_absent (has : ChunkData → Bool) (dec : ByteSeq → ByteSeq)
    (c : ChunkData) (h : has c = false) : readTree has dec c = none := by
  match c with
  | .leaf p => simp [readTree, h]
  | .node sp cs => simp [readTree, h]

/-- Modelled from the spec: capacity configuration of the stores.  Only the
cache entry capacity is relevant to the claims at hand. -/
structure StoreParams where
  cacheCapacity : Nat
deriving DecidableEq

/-- Modelled from the spec: the default store parameters used by the test
driver when constructing a fresh `MemStore`. -/
def NewDefaultStoreParams : StoreParams :=
  ⟨5000⟩

/-- Modelled from the spec: the capacity-bounded volatile cache, keyed by
address.  `entries` is kept most-recently-used first and never exceeds
`capacity`. -/
structure MemStore where
  capacity : Nat
  entries : List ChunkData

/-- Modelled from the spec: a fresh, empty cache with the configured entry
capacity. -/
def NewMemStore (p : StoreParams) : MemStore :=
  ⟨p.cacheCapacity, []⟩

/-- Modelled from the spec: insert/overwrite the chunk keyed by its address,
evicting least-recently-used entries beyond capacity; a put on a
zero-capacity store retains nothing. -/
def MemStore.Put (m : MemStore) (c : ChunkData) : MemStore :=
  if m.capacity = 0 then m
  else { m with entries := (c :: m.entries.erase c).take m.capacity }

/-- Modelled from the spec: return the chunk when present (under the
identity-hash model the content of a present chunk is its address), or
not-found, which only signals "try the next tier". -/
def MemStore.Get (m : MemStore) (a : ChunkData) : Option ChunkData :=
  if a ∈ m.entries then some a else none

/-- Modelled from the spec: dynamically resize the cache, evicting
least-recently-used entries when shrinking; capacity zero immediately drops
all entries. -/
def MemStore.setCapacity (m : MemStore) (n : Nat) : MemStore :=
  ⟨n, m.entries.take n⟩

/-- The chunk-store capability view of a `MemStore` (the test's
`chunkMemStore` wrapper): whether a read of the address can be served. -/
def MemStore.has (m : MemStore) (a : ChunkData) : Bool :=
  (m.Get a).isSome

/-- Modelled from the spec: the durable tier, a persistent key-value chunk
store; the claims never shrink its capacity, so only its contents are
modelled. -/
structure DbStore where
  entries : List ChunkData

/-- Modelled from the spec: persist a chunk; idempotent for a given address
(re-putting identical content is skipped). -/
def DbStore.Put (db : DbStore) (c : ChunkData) : DbStore :=
  if c ∈ db.entries then db else ⟨db.entries ++ [c]⟩

/-- Modelled from the spec: return the stored chunk or not-found, the hard
signal that no further fallback tier exists below the durable store. -/
def DbStore.Get (db : DbStore) (a : ChunkData) : Option ChunkData :=
  if a ∈ db.entries then some a else none

/-- The chunk-store capability view of a `DbStore`. -/
def DbStore.has (db : DbStore) (a : ChunkData) : Bool :=
  (db.Get a).isSome

/-- Modelled from the spec: the composite store, a read-through/write-through
façade over the cache and the durable tier. -/
structure LocalStore where
  memStore : MemStore
  dbStore : DbStore

/-- Modelled from the spec: a put writes to both tiers; the durable write is
the authoritative one. -/
def LocalStore.Put (ls : LocalStore) (c : ChunkData) : LocalStore :=
  ⟨ls.memStore.Put c, ls.dbStore.Put c⟩

/-- Modelled from the spec: a get checks the cache first and falls back to
the durable tier on a cache miss; only a miss in both tiers is not-found. -/
def LocalStore.Get (ls : LocalStore) (a : ChunkData) : Option ChunkData :=
  match ls.memStore.Get a with
  | some c => some c
  | none => ls.dbStore.Get a

/-- The chunk-store capability view of a `LocalStore`. -/
def LocalStore.has (ls : LocalStore) (a : ChunkData) : Bool :=
  (ls.Get a).isSome

/-- Store a whole list of chunks through the composite store (the splitter
pushing every produced chunk). -/
def putAll (ls : LocalStore) (cs : List ChunkData) : LocalStore :=
  cs.foldl LocalStore.Put ls

theorem DbStore.mem_Put_self (db : DbStore) (c : ChunkData) :
    c ∈ (db.Put c).entries := by
  by_cases h : c ∈ db.entries <;> simp [DbStore.Put, h]

theorem DbStore.mem_Put_mono (db : DbStore) (c x : ChunkData)
    (h : x ∈ db.entries) : x ∈ (db.Put c).entries := by
  by_cases hc : c ∈ db.entries <;> simp [DbStore.Put, hc, h]

theorem putAll_db_mono (cs : List ChunkData) :
    ∀ (ls : LocalStore) (x : ChunkData), x ∈ ls.dbStore.entries →
      x ∈ (putAll ls cs).dbStore.entries := by
  induction cs with
  | nil => intro ls x h; exact h
  | cons c cs ih =>
      intro ls x h
      exact ih (ls.Put c) x (DbStore.mem_Put_mono ls.dbStore c x h)

theorem putAll_db_mem (cs : List ChunkData) :
    ∀ (ls : LocalStore) (x : ChunkData), x ∈ cs →
      x ∈ (putAll ls cs).dbStore.entries := by
  induction cs with
  | nil => intro ls x h; cases h
  | cons c cs ih =>
      intro ls x h
      rcases List.mem_cons.mp h with rfl | hmem
      · exact putAll_db_mono cs (ls.Put x) x (DbStore.mem_Put_self ls.dbStore x)
      · exact ih (ls.Put c) x hmem

/-- A chunk held by the durable tier is always served by the composite store,
whatever the state of the cache. -/
theorem LocalStore.has_of_db (ls : LocalStore) (x : ChunkData)
    (h : x ∈ ls.dbStore.entries) : ls.has x = true := by
  unfold LocalStore.has LocalStore.Get
  match hm : ls.memStore.Get x with
  | some c => simp
  | none => simp [DbStore.Get, h]

theorem MemStore.setCapacity_zero_has (m : MemStore) (a : ChunkData) :
    (m.setCapacity 0).has a = false := by
  simp [MemStore.setCapacity, MemStore.has, MemStore.Get]

theorem NewMemStore_has (p : StoreParams) (a : ChunkData) :
    (NewMemStore p).has a = false := by
  simp [NewMemStore, MemStore.has, MemStore.Get]

/-- Modelled from the spec: the handle returned by `Store` and consumed by
`Retrieve`.  It carries the root address and, for an encrypted tree, the
embedded per-operation key material, so the retrieval path can determine the
encryption flag from the handle alone. -/
structure Reference where
  addr : ChunkData
  encKey : Option Byte
deriving DecidableEq

/-- Modelled from the spec: whether a reference designates an encrypted
tree, determined by the handle alone. -/
def Reference.isEncrypted (r : Reference) : Bool :=
  r.encKey.isSome

/-- Modelled from the spec: the context/cancellation token; only its expiry
matters to the claims. -/
structure Ctx where
  expired : Bool

/-- Modelled from the spec: errors surfaced by the asynchronous completion
signal. -/
inductive DPAErr where
  | timeout
deriving DecidableEq

/-- Modelled from the spec: the `wait` function returned by `Store`; it
resolves to `none` once every chunk is durably stored, or to an error when
the context expired before completion. -/
def dpaWait (ctx : Ctx) : Option DPAErr :=
  if ctx.expired then some .timeout else none

/-- Modelled from the spec: the chunk tree actually pushed to the store — the
split of the stream, with every chunk passed through the encryption layer
before addressing when `toEncrypt` is set. -/
def storedTree (S : ByteSeq) (toEncrypt : Bool) (k : Byte) : ChunkData :=
  if toEncrypt then encTree k (splitData S) else splitData S

/-- The result of a `Store` call: the returned reference, the store state
once the split pipeline has run, and the immediate (pre-flight) error. -/
structure StoreOutcome where
  addr : Reference
  ls : LocalStore
  err : Option DPAErr

/-- Modelled from the spec: `Store(ctx, stream, size, toEncrypt)`.  It kicks
off a split, immediately returns the derivable root reference with a `nil`
pre-flight error, and pushes every chunk of the tree through the composite
store unless the context expired first (in which case the in-flight stores
are abandoned and only `wait` reports the failure).  `k` is the
per-operation encryption key material. -/
def dpaStore (ls : LocalStore) (ctx : Ctx) (S : ByteSeq) (toEncrypt : Bool) (k : Byte) :
    StoreOutcome :=
  { addr := ⟨storedTree S toEncrypt k, if toEncrypt then some k else none⟩
    ls := if ctx.expired then ls else putAll ls (chunksUnder (storedTree S toEncrypt k))
    err := none }

/-- Modelled from the spec: the lazy random-access reader returned by
`Retrieve`; it holds the reference and the chunk-store capability and fetches
nothing until read from. -/
structure LazyChunkReader where
  ref : Reference
  has : ChunkData → Bool

/-- Modelled from the spec: `Retrieve(address)` synchronously returns the
lazy reader over the given chunk-store capability together with the
encryption flag; it never fails at call time. -/
def dpaRetrieve (has : ChunkData → Bool) (r : Reference) : LazyChunkReader × Bool :=
  (⟨r, has⟩, r.isEncrypted)

/-- The per-leaf decryption transform demanded by a reference: the symmetric
cipher under the embedded key for an encrypted tree, the identity
otherwise. -/
def Reference.dec (r : Reference) : ByteSeq → ByteSeq :=
  match r.encKey with
  | some k => decB k
  | none => id

/-- Errors reported by a read on the lazy reader. -/
inductive ReadErr where
  | eof
  | notFound
deriving DecidableEq

/-- The outcome of `ReadAt`: the byte count, the bytes placed in the buffer,
and the error indicator (`eof` exactly when the requested window reaches the
end of the stream). -/
structure ReadResult where
  n : Nat
  bytes : ByteSeq
  err : Option ReadErr
deriving DecidableEq

/-- Modelled from the spec: `ReadAt` into a buffer of length `bufLen` at
byte offset `off`.  The reader resolves the chunk path through the store; a
missing chunk fails the read with not-found rather than returning truncated
data, and a read whose window reaches the end of the known total size
reports end-of-stream together with the exact count of available bytes. -/
def LazyChunkReader.ReadAt (rd : LazyChunkReader) (bufLen off : Nat) : ReadResult :=
  match readTree rd.has rd.ref.dec rd.ref.addr with
  | none => ⟨0, [], some .notFound⟩
  | some d =>
      let out := (d.drop off).take bufLen
      ⟨out.length, out, if d.length ≤ off + bufLen then some .eof else none⟩

/-- Reading the full stored stream back: when every chunk of the stored tree
is served by the capability `has`, a `ReadAt` of the full length at offset 0
returns exactly the original bytes and reports end-of-stream. -/
theorem ReadAt_full (S : ByteSeq) (toEncrypt : Bool) (k : Byte)
    (has : ChunkData → Bool)
    (hall : ∀ x ∈ chunksUnder (storedTree S toEncrypt k), has x = true) :
    (dpaRetrieve has ⟨storedTree S toEncrypt k,
        if toEncrypt then some k else none⟩).1.ReadAt S.length 0 =
      ⟨S.length, S, some .eof⟩ := by
  have hread : readTree has
      (Reference.dec ⟨storedTree S toEncrypt k, if toEncrypt then some k else none⟩)
      (storedTree S toEncrypt k) = some S := by
    rw [readTree_complete _ _ _ hall]
    cases toEncrypt with
    | false =>
        simp only [storedTree, if_neg Bool.false_ne_true, if_false, Reference.dec]
        rw [joinD_splitData]
    | true =>
        simp only [storedTree, if_true, Reference.dec]
        rw [joinD_decB_encTree, joinD_splitData]
  simp only [dpaRetrieve, LazyChunkReader.ReadAt, hread]
  simp

/-- A reader over a capability that cannot serve the root chunk fails any
read with not-found. -/
theorem ReadAt_notFound (r : Reference) (has : ChunkData → Bool)
    (habs : has r.addr = false) (bufLen off : Nat) :
    (dpaRetrieve has r).1.ReadAt bufLen off = ⟨0, [], some .notFound⟩ := by
  simp only [dpaRetrieve, LazyChunkReader.ReadAt,
    readTree_absent has r.dec r.addr habs]

/-- The smallest `int64` value. -/
def int64Min : Int := -(2 ^ 63)

/-- Two's-complement wraparound of Go `int64` arithmetic. -/
def wrap64 (n : Int) : Int :=
  (n + 2 ^ 63) % 2 ^ 64 + int64Min

/-- The test backend of `swarm/testutil/http.go`: its whole state is the
`blocknumber` counter (a Go `int64`). -/
structure FakeBackend where
  blocknumber : Int
deriving DecidableEq

/-- A block header, reduced to the only field `fakeBackend` populates. -/
structure Header where
  Number : Int
deriving DecidableEq

/-- `fakeBackend.HeaderByNumber` from `swarm/testutil/http.go`: increments
the `blocknumber` counter (in `int64` arithmetic, hence with wraparound),
ignores the requested block number, and returns the updated backend, a
header carrying the incremented counter, and a nil error. -/
def FakeBackend.HeaderByNumber (f : FakeBackend) (bigblock : Int) :
    FakeBackend × Header × Option Unit :=
  let bn := wrap64 (f.blocknumber + 1)
  (⟨bn⟩, ⟨bn⟩, none)

theorem wrap64_eq_self (n : Int) (hlo : int64Min ≤ n) (hhi : n < 2 ^ 63) :
    wrap64 n = n := by
  unfold wrap64 int64Min at *
  omega

/-- After a store pipeline that ran to completion (context not expired),
every chunk of the stored tree is held by the durable tier. -/
theorem dpaStore_db_all (ls₀ : LocalStore) (ctx : Ctx) (S : ByteSeq)
    (toEncrypt : Bool) (k : Byte) (hctx : ctx.expired = false) :
    ∀ x ∈ chunksUnder (storedTree S toEncrypt k),
      x ∈ (dpaStore ls₀ ctx S toEncrypt k).ls.dbStore.entries := by
  intro x hx
  have hls : (dpaStore ls₀ ctx S toEncrypt k).ls =
      putAll ls₀ (chunksUnder (storedTree S toEncrypt k)) := by
    simp [dpaStore, hctx]
  rw [hls]
  exact putAll_db_mem _ ls₀ x hx

/-- After a completed store pipeline, the composite store serves every chunk
of the stored tree. -/
theorem dpaStore_has_all (ls₀ : LocalStore) (ctx : Ctx) (S : ByteSeq)
    (toEncrypt : Bool) (k : Byte) (hctx : ctx.expired = false) :
    ∀ x ∈ chunksUnder (storedTree S toEncrypt k),
      (dpaStore ls₀ ctx S toEncrypt k).ls.has x = true :=
  fun x hx => LocalStore.has_of_db _ x (dpaStore_db_all ls₀ ctx S toEncrypt k hctx x hx)

/-- A fresh composite store: an empty default cache over an empty durable
store (the state the test driver starts from). -/
def emptyLocalStore : LocalStore :=
  ⟨NewMemStore NewDefaultStoreParams, ⟨[]⟩⟩

/-- C1.  Round-trip: for every byte sequence S of length L (any L, including
the 16,777,216-byte case of the test), after `Store` with a non-expired
context and `wait` returning nil, `Retrieve` on the returned address yields a
reader whose full `ReadAt` at offset 0 into a buffer of length L returns
exactly S and reports end-of-stream exactly at L bytes, for both
`toEncrypt = false` and `toEncrypt = true`. -/
theorem C1_store_retrieve_roundtrip (ls₀ : LocalStore) (ctx : Ctx) (S : ByteSeq)
    (toEncrypt : Bool) (k : Byte) (hctx : ctx.expired = false) :
    dpaWait ctx = none ∧
    (dpaRetrieve (dpaStore ls₀ ctx S toEncrypt k).ls.has
        (dpaStore ls₀ ctx S toEncrypt k).addr).1.ReadAt S.length 0 =
      ⟨S.length, S, some .eof⟩ := by
  constructor
  · simp [dpaWait, hctx]
  · exact ReadAt_full S toEncrypt k _ (dpaStore_has_all ls₀ ctx S toEncrypt k hctx)

theorem C1_witness :
    (⟨false⟩ : Ctx).expired = false ∧
    (dpaWait ⟨false⟩ = none ∧
      (dpaRetrieve (dpaStore emptyLocalStore ⟨false⟩ [5, 17] true 3).ls.has
          (dpaStore emptyLocalStore ⟨false⟩ [5, 17] true 3).addr).1.ReadAt
          ([5, 17] : ByteSeq).length 0 =
        ⟨([5, 17] : ByteSeq).length, [5, 17], some .eof⟩) :=
  ⟨rfl, C1_store_retrieve_roundtrip emptyLocalStore ⟨false⟩ [5, 17] true 3 rfl⟩

/-- C2.  Encryption flag fidelity: the `isEncrypted` boolean returned by
`Retrieve` on a stored address equals the `toEncrypt` value passed to the
`Store` call that produced the address, for both values and over any
chunk-store capability state at retrieval time (hence on every subsequent
retrieve of the same address). -/
theorem C2_isEncrypted_mirrors_toEncrypt (ls₀ : LocalStore) (ctx : Ctx)
    (S : ByteSeq) (toEncrypt : Bool) (k : Byte) (has : ChunkData → Bool) :
    (dpaRetrieve has (dpaStore ls₀ ctx S toEncrypt k).addr).2 = toEncrypt := by
  cases toEncrypt <;> simp [dpaRetrieve, dpaStore, Reference.isEncrypted]

/-- C3.  Cache-independent durability: after a successful `Store` + `wait`,
replacing the cache with a fresh empty `MemStore` over the same durable
store changes neither the result of a full read (still exactly S with
end-of-stream at its length) nor the `isEncrypted` flag. -/
theorem C3_cache_replacement (ls₀ : LocalStore) (ctx : Ctx) (S : ByteSeq)
    (toEncrypt : Bool) (k : Byte) (p : StoreParams) (hctx : ctx.expired = false) :
    (dpaRetrieve (LocalStore.mk (NewMemStore p)
        (dpaStore ls₀ ctx S toEncrypt k).ls.dbStore).has
        (dpaStore ls₀ ctx S toEncrypt k).addr).1.ReadAt S.length 0 =
      (dpaRetrieve (dpaStore ls₀ ctx S toEncrypt k).ls.has
        (dpaStore ls₀ ctx S toEncrypt k).addr).1.ReadAt S.length 0 ∧
    (dpaRetrieve (LocalStore.mk (NewMemStore p)
        (dpaStore ls₀ ctx S toEncrypt k).ls.dbStore).has
        (dpaStore ls₀ ctx S toEncrypt k).addr).1.ReadAt S.length 0 =
      ⟨S.length, S, some .eof⟩ ∧
    (dpaRetrieve (LocalStore.mk (NewMemStore p)
        (dpaStore ls₀ ctx S toEncrypt k).ls.dbStore).has
        (dpaStore ls₀ ctx S toEncrypt k).addr).2 =
      (dpaRetrieve (dpaStore ls₀ ctx S toEncrypt k).ls.has
        (dpaStore ls₀ ctx S toEncrypt k).addr).2 := by
  have hswap : ∀ x ∈ chunksUnder (storedTree S toEncrypt k),
      (LocalStore.mk (NewMemStore p)
        (dpaStore ls₀ ctx S toEncrypt k).ls.dbStore).has x = true := by
    intro x hx
    exact LocalStore.has_of_db _ x (dpaStore_db_all ls₀ ctx S toEncrypt k hctx x hx)
  have h₁ := ReadAt_full S toEncrypt k _ hswap
  have h₂ := ReadAt_full S toEncrypt k _ (dpaStore_has_all ls₀ ctx S toEncrypt k hctx)
  exact ⟨h₁.trans h₂.symm, h₁, rfl⟩

theorem C3_witness :
    (⟨false⟩ : Ctx).expired = false ∧
    ((dpaRetrieve (LocalStore.mk (NewMemStore NewDefaultStoreParams)
        (dpaStore emptyLocalStore ⟨false⟩ [9] false 0).ls.dbStore).has
        (dpaStore emptyLocalStore ⟨false⟩ [9] false 0).addr).1.ReadAt
        ([9] : ByteSeq).length 0 =
      (dpaRetrieve (dpaStore emptyLocalStore ⟨false⟩ [9] false 0).ls.has
        (dpaStore emptyLocalStore ⟨false⟩ [9] false 0).addr).1.ReadAt
        ([9] : ByteSeq).length 0 ∧
    (dpaRetrieve (LocalStore.mk (NewMemStore NewDefaultStoreParams)
        (dpaStore emptyLocalStore ⟨false⟩ [9] false 0).ls.dbStore).has
        (dpaStore emptyLocalStore ⟨false⟩ [9] false 0).addr).1.ReadAt
        ([9] : ByteSeq).length 0 =
      ⟨([9] : ByteSeq).length, [9], some .eof⟩ ∧
    (dpaRetrieve (LocalStore.mk (NewMemStore NewDefaultStoreParams)
        (dpaStore emptyLocalStore ⟨false⟩ [9] false 0).ls.dbStore).has
        (dpaStore emptyLocalStore ⟨false⟩ [9] false 0).addr).2 =
      (dpaRetrieve (dpaStore emptyLocalStore ⟨false⟩ [9] false 0).ls.has
        (dpaStore emptyLocalStore ⟨false⟩ [9] false 0).addr).2) :=
  ⟨rfl, C3_cache_replacement emptyLocalStore ⟨false⟩ [9] false 0 NewDefaultStoreParams rfl⟩

/-- C4.  Cache-only failure versus composite fallback: after a successful
store, once the cache capacity is set to zero, a read of the stored address
through the `MemStore`-only chunk-store capability fails with not-found,
while the same read through the full `LocalStore` over the intact durable
store still returns the original content. -/
theorem C4_capacity_zero (ls₀ : LocalStore) (ctx : Ctx) (S : ByteSeq)
    (toEncrypt : Bool) (k : Byte) (hctx : ctx.expired = false) :
    (dpaRetrieve ((dpaStore ls₀ ctx S toEncrypt k).ls.memStore.setCapacity 0).has
        (dpaStore ls₀ ctx S toEncrypt k).addr).1.ReadAt S.length 0 =
      ⟨0, [], some .notFound⟩ ∧
    (dpaRetrieve (LocalStore.mk
        ((dpaStore ls₀ ctx S toEncrypt k).ls.memStore.setCapacity 0)
        (dpaStore ls₀ ctx S toEncrypt k).ls.dbStore).has
        (dpaStore ls₀ ctx S toEncrypt k).addr).1.ReadAt S.length 0 =
      ⟨S.length, S, some .eof⟩ := by
  constructor
  · exact ReadAt_notFound _ _ (MemStore.setCapacity_zero_has _ _) S.length 0
  · refine ReadAt_full S toEncrypt k _ ?_
    intro x hx
    exact LocalStore.has_of_db _ x (dpaStore_db_all ls₀ ctx S toEncrypt k hctx x hx)

theorem C4_witness :
    (⟨false⟩ : Ctx).expired = false ∧
    ((dpaRetrieve ((dpaStore emptyLocalStore ⟨false⟩ [1, 2] true 7).ls.memStore.setCapacity 0).has
        (dpaStore emptyLocalStore ⟨false⟩ [1, 2] true 7).addr).1.ReadAt
        ([1, 2] : ByteSeq).length 0 = ⟨0, [], some .notFound⟩ ∧
    (dpaRetrieve (LocalStore.mk
        ((dpaStore emptyLocalStore ⟨false⟩ [1, 2] true 7).ls.memStore.setCapacity 0)
        (dpaStore emptyLocalStore ⟨false⟩ [1, 2] true 7).ls.dbStore).has
        (dpaStore emptyLocalStore ⟨false⟩ [1, 2] true 7).addr).1.ReadAt
        ([1, 2] : ByteSeq).length 0 =
      ⟨([1, 2] : ByteSeq).length, [1, 2], some .eof⟩) :=
  ⟨rfl, C4_capacity_zero emptyLocalStore ⟨false⟩ [1, 2] true 7 rfl⟩

/-- C5.  Exact end-of-stream reporting: for a stream of original length L
stored successfully, a `ReadAt` of L bytes at offset 0 on the retrieve
reader returns count n = L together with the end-of-stream indicator — not
a partial-read error and not a count different from L. -/
theorem C5_exact_eof (ls₀ : LocalStore) (ctx : Ctx) (S : ByteSeq)
    (toEncrypt : Bool) (k : Byte) (hctx : ctx.expired = false) :
    ((dpaRetrieve (dpaStore ls₀ ctx S toEncrypt k).ls.has
        (dpaStore ls₀ ctx S toEncrypt k).addr).1.ReadAt S.length 0).n = S.length ∧
    ((dpaRetrieve (dpaStore ls₀ ctx S toEncrypt k).ls.has
        (dpaStore ls₀ ctx S toEncrypt k).addr).1.ReadAt S.length 0).err =
      some .eof := by
  have haddr : (dpaStore ls₀ ctx S toEncrypt k).addr =
      ⟨storedTree S toEncrypt k, if toEncrypt then some k else none⟩ := rfl
  have h := ReadAt_full S toEncrypt k _ (dpaStore_has_all ls₀ ctx S toEncrypt k hctx)
  rw [haddr, h]
  exact ⟨rfl, rfl⟩

theorem C5_witness :
    (⟨false⟩ : Ctx).expired = false ∧
    (((dpaRetrieve (dpaStore emptyLocalStore ⟨false⟩ [4, 4, 4] false 11).ls.has
        (dpaStore emptyLocalStore ⟨false⟩ [4, 4, 4] false 11).addr).1.ReadAt
        ([4, 4, 4] : ByteSeq).length 0).n = ([4, 4, 4] : ByteSeq).length ∧
    ((dpaRetrieve (dpaStore emptyLocalStore ⟨false⟩ [4, 4, 4] false 11).ls.has
        (dpaStore emptyLocalStore ⟨false⟩ [4, 4, 4] false 11).addr).1.ReadAt
        ([4, 4, 4] : ByteSeq).length 0).err = some .eof) :=
  ⟨rfl, C5_exact_eof emptyLocalStore ⟨false⟩ [4, 4, 4] false 11 rfl⟩

/-- C6.  Store/wait decoupling: `Store` immediately returns the derivable
root address with a nil pre-flight error; `wait` returns nil exactly when
the context has not expired, and when it returns nil every chunk of the
tree has been durably stored; on expiry it returns an error instead. -/
theorem C6_store_wait (ls₀ : LocalStore) (ctx : Ctx) (S : ByteSeq)
    (toEncrypt : Bool) (k : Byte) :
    (dpaStore ls₀ ctx S toEncrypt k).err = none ∧
    (dpaStore ls₀ ctx S toEncrypt k).addr.addr = storedTree S toEncrypt k ∧
    (dpaWait ctx = none ↔ ctx.expired = false) ∧
    (dpaWait ctx = none →
      ∀ x ∈ chunksUnder (storedTree S toEncrypt k),
        x ∈ (dpaStore ls₀ ctx S toEncrypt k).ls.dbStore.entries) := by
  refine ⟨rfl, rfl, ?_, ?_⟩
  · cases hctx : ctx.expired <;> simp [dpaWait, hctx]
  · intro hw
    have hctx : ctx.expired = false := by
      cases hctx : ctx.expired
      · rfl
      · rw [dpaWait, hctx] at hw
        simp at hw
    exact dpaStore_db_all ls₀ ctx S toEncrypt k hctx

theorem C6_witness :
    (dpaStore emptyLocalStore ⟨false⟩ [8] true 2).err = none ∧
    (dpaStore emptyLocalStore ⟨false⟩ [8] true 2).addr.addr = storedTree [8] true 2 ∧
    (dpaWait ⟨false⟩ = none ↔ (⟨false⟩ : Ctx).expired = false) ∧
    (dpaWait ⟨false⟩ = none →
      ∀ x ∈ chunksUnder (storedTree [8] true 2),
        x ∈ (dpaStore emptyLocalStore ⟨false⟩ [8] true 2).ls.dbStore.entries) :=
  C6_store_wait emptyLocalStore ⟨false⟩ [8] true 2

/-- C7.  Retrieve never fails at call time: for any reference — including one
whose chunks are absent from the queried capability — `Retrieve` returns the
lazy reader and the encryption flag (the flag depending on the reference
alone); the not-found failure surfaces only when the returned reader is
read. -/
theorem C7_retrieve_lazy (has : ChunkData → Bool) (r : Reference)
    (bufLen off : Nat) (habs : has r.addr = false) :
    (dpaRetrieve has r).2 = r.isEncrypted ∧
    (dpaRetrieve has r).1.ReadAt bufLen off = ⟨0, [], some .notFound⟩ :=
  ⟨rfl, ReadAt_notFound r has habs bufLen off⟩

theorem C7_witness :
    (fun _ : ChunkData => false) (Reference.mk (.leaf [1]) none).addr = false ∧
    ((dpaRetrieve (fun _ => false) ⟨.leaf [1], none⟩).2 =
        (Reference.mk (.leaf [1]) none).isEncrypted ∧
      (dpaRetrieve (fun _ => false) ⟨.leaf [1], none⟩).1.ReadAt 5 0 =
        ⟨0, [], some .notFound⟩) :=
  ⟨rfl, C7_retrieve_lazy (fun _ => false) ⟨.leaf [1], none⟩ 5 0 rfl⟩

/-- C8.  Idempotent addressing: storing identical content with the same
encryption setting and the same key yields the same root address, whatever
the store state and context of each of the two calls (in particular for a
second store immediately after the first). -/
theorem C8_idempotent_addressing (ls₀ ls₁ : LocalStore) (ctx₀ ctx₁ : Ctx)
    (S : ByteSeq) (toEncrypt : Bool) (k : Byte) :
    (dpaStore ls₀ ctx₀ S toEncrypt k).addr = (dpaStore ls₁ ctx₁ S toEncrypt k).addr :=
  rfl

/-- C9.  The `isEncrypted` flag returned by `Retrieve` is determined by the
reference alone: retrieving over any two chunk-store capabilities — for
example a drained cache-only store and the full composite store — returns
the same flag. -/
theorem C9_flag_store_independent (r : Reference) (has₁ has₂ : ChunkData → Bool) :
    (dpaRetrieve has₁ r).2 = (dpaRetrieve has₂ r).2 :=
  rfl

/-- C10, counterexample.  The claim that successive `HeaderByNumber` calls
always return strictly increasing block numbers fails at the `int64`
overflow boundary: starting from a backend whose counter is `2^63 - 2`, the
first call returns `2^63 - 1` and the second wraps to `-2^63`, which is not
an increase. -/
theorem C10_counterexample :
    ¬ (((FakeBackend.mk (2 ^ 63 - 2)).HeaderByNumber 0).2.1.Number <
        ((((FakeBackend.mk (2 ^ 63 - 2)).HeaderByNumber 0).1).HeaderByNumber 0).2.1.Number) := by
  decide

/-- C10, amended.  `fakeBackend.HeaderByNumber` never returns an error,
ignores its requested block-number argument, increments the internal
`blocknumber` counter by one in wrapping `int64` arithmetic, and returns a
header whose `Number` equals the incremented counter; consequently two
successive calls return strictly increasing block numbers whenever the
counter stays clear of `int64` overflow (the counter is in range and at
least two below the maximum `int64` value). -/
theorem C10_fakeBackend (f : FakeBackend) (b b' : Int) :
    (f.HeaderByNumber b).2.2 = none ∧
    f.HeaderByNumber b = f.HeaderByNumber b' ∧
    (f.HeaderByNumber b).1.blocknumber = wrap64 (f.blocknumber + 1) ∧
    (f.HeaderByNumber b).2.1.Number = (f.HeaderByNumber b).1.blocknumber ∧
    (int64Min ≤ f.blocknumber → f.blocknumber + 2 ≤ 2 ^ 63 - 1 →
      (f.HeaderByNumber b).2.1.Number <
        (((f.HeaderByNumber b).1).HeaderByNumber b').2.1.Number) := by
  refine ⟨rfl, rfl, rfl, rfl, ?_⟩
  intro h₁ h₂
  simp only [FakeBackend.HeaderByNumber, wrap64, int64Min] at *
  omega

theorem C10_witness :
    int64Min ≤ (42 : Int) ∧
    (((FakeBackend.mk 42).HeaderByNumber 7).2.2 = none ∧
      (FakeBackend.mk 42).HeaderByNumber 7 = (FakeBackend.mk 42).HeaderByNumber 9 ∧
      ((FakeBackend.mk 42).HeaderByNumber 7).1.blocknumber =
        wrap64 ((FakeBackend.mk 42).blocknumber + 1) ∧
      ((FakeBackend.mk 42).HeaderByNumber 7).2.1.Number =
        ((FakeBackend.mk 42).HeaderByNumber 7).1.blocknumber ∧
      (int64Min ≤ (FakeBackend.mk 42).blocknumber →
        (FakeBackend.mk 42).blocknumber + 2 ≤ 2 ^ 63 - 1 →
        ((FakeBackend.mk 42).HeaderByNumber 7).2.1.Number <
          ((((FakeBackend.mk 42).HeaderByNumber 7).1).HeaderByNumber 9).2.1.Number)) :=
  ⟨by decide, C10_fakeBackend ⟨42⟩ 7 9⟩
